import Mathlib

/-!
Verification of the Pico RLE Image (PRI) codec of the tufty-badge repository.

The encoder is embedded from convertimg.py (the row loop at lines 74-133 with
its nested write_span / write_unspan helpers, and the palette/row serialization
of the output file).  The two decoders are embedded from convertimg.py's
round-trip decoder (lines 151-179, PIL putpixel semantics) and from
badge_template.py's blit_from_io_spans (lines 146-168, PicoGraphics sink).
Bytes are modelled as Nat; Python's int.to_bytes(length=1) raising
OverflowError for values outside one byte is modelled by an Except-valued
serializer.  File handles are modelled as the list of bytes not yet read;
readinto on a 2-byte buffer copies up to 2 bytes and leaves the rest of the
buffer unchanged, exactly as a Python file object does at end of stream.
-/

/-- Span record of the PRI stream: a run (count, value), written as the two
bytes count, value with count nonzero, or an unspan (literal block), written
as a zero byte, a length byte and the raw pixel bytes. -/
inductive Span where
  | run (count : Nat) (value : Nat)
  | lit (values : List Nat)
  deriving Repr, DecidableEq

/-- Pixels that a span contributes to its row, in order. -/
def Span.pixels : Span → List Nat
  | .run c v => List.replicate c v
  | .lit vs => vs

/-- Pixel contribution of a span record: count for a run, length for a
literal block. -/
def Span.contribution : Span → Nat
  | .run c _ => c
  | .lit vs => vs.length

/-- Bytes of one span record, as convertimg.py writes them. -/
def Span.bytes : Span → List Nat
  | .run c v => [c, v]
  | .lit vs => 0 :: vs.length :: vs

/-- Structural bounds that every record emitted by the encoder satisfies:
run counts are 1..255, literal blocks hold 2..255 pixels (a single buffered
pixel is always written as a run instead, see write_unspan). -/
def SpanWf : Span → Prop
  | .run c _ => 1 ≤ c ∧ c ≤ 255
  | .lit vs => 2 ≤ vs.length ∧ vs.length ≤ 255

instance (sp : Span) : Decidable (SpanWf sp) :=
  match sp with
  | .run c _ => inferInstanceAs (Decidable (1 ≤ c ∧ c ≤ 255))
  | .lit vs => inferInstanceAs (Decidable (2 ≤ vs.length ∧ vs.length ≤ 255))

def spansPixels (S : List Span) : List Nat := (S.map Span.pixels).flatten

def spansBytes (S : List Span) : List Nat := (S.map Span.bytes).flatten

def spansSum (S : List Span) : Nat := (S.map Span.contribution).sum

def countRuns (S : List Span) : Nat :=
  S.countP fun sp => match sp with | .run _ _ => true | .lit _ => false

def countLits (S : List Span) : Nat :=
  S.countP fun sp => match sp with | .run _ _ => false | .lit _ => true

/-- Encoder state of convertimg.py's per-row loop: span_pixel (initially -1,
a value no pixel equals), span_count, the pending unspan buffer, and the
records written so far. -/
structure EncState where
  spanPixel : Int
  spanCount : Nat
  unspan : List Nat
  out : List Span
  deriving Repr, DecidableEq

/-- Embeds write_unspan (convertimg.py lines 78-98): an empty buffer writes
nothing, a single buffered pixel is written as a size-one span, otherwise a
zero byte, the size and the raw pixels are written; the buffer is cleared. -/
def write_unspan (st : EncState) : EncState :=
  if st.unspan = [] then st
  else if st.unspan.length = 1 then
    { st with out := st.out ++ [.run 1 (st.unspan.headD 0)], unspan := [] }
  else
    { st with out := st.out ++ [.lit st.unspan], unspan := [] }

/-- Embeds write_span (convertimg.py lines 100-112): a zero count only
flushes the unspan buffer; with unspan generation on, a count of one is
buffered (flushing at 255 entries); otherwise the unspan buffer is flushed
and a genuine RLE span is written. -/
def write_span (gen : Bool) (st : EncState) : EncState :=
  if st.spanCount = 0 then write_unspan st
  else if gen ∧ st.spanCount = 1 then
    let st2 := { st with unspan := st.unspan ++ [st.spanPixel.toNat] }
    if st2.unspan.length = 255 then write_unspan st2 else st2
  else
    let st2 := write_unspan st
    { st2 with out := st2.out ++ [.run st.spanCount st.spanPixel.toNat] }

/-- Embeds one iteration of the x loop (convertimg.py lines 114-128): extend
the current span on a match, committing it when it reaches the maximum
length of 255, otherwise commit the previous span and start a new one. -/
def encStep (gen : Bool) (st : EncState) (pixel : Nat) : EncState :=
  if (pixel : Int) = st.spanPixel then
    let st2 := { st with spanCount := st.spanCount + 1 }
    if st2.spanCount = 255 then
      { write_span gen st2 with spanPixel := -1, spanCount := 0 }
    else st2
  else
    { write_span gen st with spanPixel := (pixel : Int), spanCount := 1 }

/-- Records emitted for one row of pixels: the x loop folded over the row,
followed by the trailing write_span and write_unspan of lines 129-133. -/
def encodeRow (gen : Bool) (pixels : List Nat) : List Span :=
  let st := pixels.foldl (encStep gen)
    { spanPixel := -1, spanCount := 0, unspan := [], out := [] }
  (write_unspan (write_span gen st)).out

/-- Invariant of the encoder state between loop iterations: all records
written so far are well formed, the unspan buffer holds at most 254 pixels
and the current span at most 254 (both are flushed on reaching 255). -/
def EncInv (st : EncState) : Prop :=
  (∀ sp ∈ st.out, SpanWf sp) ∧ st.unspan.length ≤ 254 ∧ st.spanCount ≤ 254

/-- Byte stream of one encoded row. -/
def rowBytes (gen : Bool) (pixels : List Nat) : List Nat :=
  spansBytes (encodeRow gen pixels)

/-- Whole output file of the encoder on a valid input: the 768 palette bytes
followed by each row's records. -/
def encodeImage (gen : Bool) (pal : List Nat) (rows : List (List Nat)) : List Nat :=
  pal ++ (rows.map (rowBytes gen)).flatten

/-- Abort conditions of the encoder, named as in the specification:
paletteOverflow for the palette-length assertion (convertimg.py line 64),
invalidPixelValue for int.to_bytes raising OverflowError on a value that
does not fit one byte. -/
inductive EncErr where
  | invalidPixelValue
  | paletteOverflow
  deriving Repr, DecidableEq

/-- Embeds v.to_bytes(length=1, byteorder=big): fails unless v fits a byte. -/
def toByteE (v : Nat) : Except EncErr Nat :=
  if v ≤ 255 then .ok v else .error .invalidPixelValue

/-- Write a list of values one byte each, failing on the first that does not
fit (the palette write loop, and the pixel bytes of an unspan). -/
def bytesAllE : List Nat → Except EncErr (List Nat)
  | [] => .ok []
  | b :: bs => do
    let x ← toByteE b
    let xs ← bytesAllE bs
    pure (x :: xs)

/-- Bytes of one span record with every write going through to_bytes. -/
def spanBytesE : Span → Except EncErr (List Nat)
  | .run c v => do
    let cb ← toByteE c
    let vb ← toByteE v
    pure [cb, vb]
  | .lit vs => do
    let lb ← toByteE vs.length
    let vsb ← bytesAllE vs
    pure (0 :: lb :: vsb)

def spansBytesE : List Span → Except EncErr (List Nat)
  | [] => .ok []
  | sp :: S => do
    let b ← spanBytesE sp
    let bs ← spansBytesE S
    pure (b ++ bs)

def rowsBytesE (gen : Bool) : List (List Nat) → Except EncErr (List Nat)
  | [] => .ok []
  | r :: rs => do
    let b ← spansBytesE (encodeRow gen r)
    let bs ← rowsBytesE gen rs
    pure (b ++ bs)

/-- Whole encoder with its failure modes: the palette-length assertion, then
the palette bytes, then every row's records, each byte checked as
int.to_bytes does. -/
def encodeImageE (gen : Bool) (pal : List Nat) (rows : List (List Nat)) :
    Except EncErr (List Nat) :=
  if pal.length = 256 * 3 then do
    let palBytes ← bytesAllE pal
    let rowB ← rowsBytesE gen rows
    pure (palBytes ++ rowB)
  else .error .paletteOverflow

/-- The decoded surface: H rows of W pixel indices. -/
abbrev Grid := List (List Nat)

/-- Overwrite pixel (x, y) of the grid; callers establish the bounds. -/
def setPix (g : Grid) (x y v : Nat) : Grid :=
  g.set y ((g.getD y []).set x v)

/-- Embeds PIL Image.putpixel: an in-range write mutates the pixel, an
out-of-range coordinate raises IndexError (modelled as none). -/
def putpixelE (W H : Nat) (g : Grid) (x y v : Nat) : Option Grid :=
  if x < W ∧ y < H then some (setPix g x y v) else none

/-- Write the values vs at consecutive columns of row y starting at x
(specification helper used to state what a successful paint produced). -/
def setSeg (g : Grid) (y : Nat) : Nat → List Nat → Grid
  | _x, [] => g
  | x, v :: vs => setSeg (setPix g x y v) y (x + 1) vs

/-- Row-level counterpart of setSeg: write the values vs into one row
starting at column x. -/
def rowSeg : List Nat → Nat → List Nat → List Nat
  | row, _x, [] => row
  | row, x, v :: vs => rowSeg (row.set x v) (x + 1) vs

/-- Paint whole rows one after another, starting at row y. -/
def paintRows : Grid → Nat → List (List Nat) → Grid
  | g, _y, [] => g
  | g, y, P :: Ps => paintRows (setSeg g y 0 P) (y + 1) Ps

/-- Total number of span records over a list of rows of records. -/
def spansLen (SS : List (List Span)) : Nat := (SS.map List.length).sum

/-- Result of a sequence of putpixel calls: the grid on an IndexError (the
pixels painted before it survive), or the grid and the new cursor. -/
inductive PaintRes where
  | perr (g : Grid)
  | pok (g : Grid) (x : Nat)
  deriving Repr, DecidableEq

/-- Embeds the literal loop of the round-trip decoder (convertimg.py lines
168-170): putpixel each byte, stepping x. -/
def rt_paint_list (W H y : Nat) (g : Grid) (x : Nat) : List Nat → PaintRes
  | [] => .pok g x
  | v :: vs =>
    match putpixelE W H g x y v with
    | none => .perr g
    | some g2 => rt_paint_list W H y g2 (x + 1) vs

/-- Embeds the run loop of the round-trip decoder (convertimg.py lines
174-177): putpixel the value count times, stepping x. -/
def rt_paint_run (W H y : Nat) (g : Grid) (x v : Nat) : Nat → PaintRes
  | 0 => .pok g x
  | c + 1 =>
    match putpixelE W H g x y v with
    | none => .perr g
    | some g2 => rt_paint_run W H y g2 (x + 1) v c

/-- Embeds handle.readinto(span_data) on a 2-byte buffer: copy up to two
bytes from the stream into the buffer; at end of stream the buffer keeps its
previous contents (readinto returns 0 and the code ignores that). -/
def readinto2 (buf : Nat × Nat) (s : List Nat) : (Nat × Nat) × List Nat :=
  match s with
  | [] => (buf, [])
  | [a] => ((a, buf.2), [])
  | a :: b :: rest => ((a, b), rest)

/-- Outcome of one row's while loop in the round-trip decoder. -/
inductive RowRes where
  | outOfFuel (g : Grid)
  | indexError (g : Grid)
  | rowDone (buf : Nat × Nat) (s : List Nat) (g : Grid) (fuel : Nat)
  deriving Repr, DecidableEq

/-- Embeds the while x less-than width loop of convertimg.py lines 160-177:
read a 2-byte header, a zero count is an unspan whose value byte is the read
size, otherwise paint a run.  The loop has no termination guarantee on
corrupt input, so it burns one unit of fuel per span. -/
def rt_row_loop (W H y : Nat) : Nat → Nat × Nat → List Nat → Grid → Nat → RowRes
  | fuel, buf, s, g, x =>
    if x < W then
      match fuel with
      | 0 => .outOfFuel g
      | fuel + 1 =>
        let r := readinto2 buf s
        let count := r.1.1
        let value := r.1.2
        if count = 0 then
          let unspan_data := r.2.take value
          match rt_paint_list W H y g x unspan_data with
          | .perr g2 => .indexError g2
          | .pok g2 x2 => rt_row_loop W H y fuel r.1 (r.2.drop value) g2 x2
        else
          match rt_paint_run W H y g x value count with
          | .perr g2 => .indexError g2
          | .pok g2 x2 => rt_row_loop W H y fuel r.1 r.2 g2 x2
    else .rowDone buf s g fuel

/-- Outcome of the row loop over all rows. -/
inductive RowsRes where
  | outOfFuel (g : Grid)
  | indexError (g : Grid)
  | rowsDone (g : Grid) (s : List Nat) (fuel : Nat)
  deriving Repr, DecidableEq

/-- Embeds the for y loop of convertimg.py lines 158-177, with the 2-byte
span buffer persisting across rows. -/
def rt_rows (W H : Nat) : Nat → Nat → Nat → Nat × Nat → List Nat → Grid → RowsRes
  | 0, _y, fuel, _buf, s, g => .rowsDone g s fuel
  | r + 1, y, fuel, buf, s, g =>
    match rt_row_loop W H y fuel buf s g 0 with
    | .outOfFuel g2 => .outOfFuel g2
    | .indexError g2 => .indexError g2
    | .rowDone buf2 s2 g2 fuel2 => rt_rows W H r (y + 1) fuel2 buf2 s2 g2

/-- Outcome of the whole round-trip decode. -/
inductive DecRes where
  | outOfFuel (g : Grid)
  | indexError (g : Grid)
  | decDone (pal : List Nat) (g : Grid) (s : List Nat) (fuel : Nat)
  deriving Repr, DecidableEq

/-- Embeds the round-trip decoder of convertimg.py lines 151-179: read the
768 palette bytes into a zero-initialized buffer, start from a fresh
zero-filled image of the given size, then decode H rows of spans. -/
def round_trip_decode (fuel W H : Nat) (stream : List Nat) : DecRes :=
  let paldata := stream.take 768 ++ List.replicate (768 - (stream.take 768).length) 0
  let s := stream.drop 768
  let g : Grid := List.replicate H (List.replicate W 0)
  match rt_rows W H H 0 fuel (0, 0) s g with
  | .outOfFuel g2 => .outOfFuel g2
  | .indexError g2 => .indexError g2
  | .rowsDone g2 s2 fuel2 => .decDone paldata g2 s2 fuel2

/-- Sink operations the badge decoder issues: set_pen plus pixel, and
set_pen plus pixel_span (a run of count pixels starting at x). -/
inductive SinkOp where
  | setPixel (x y v : Nat)
  | setSpan (x y count v : Nat)
  deriving Repr, DecidableEq

/-- Embeds the for pixel in unspan_data loop of badge_template.py lines
160-163: one sink pixel write per byte, stepping x. -/
def blit_pixels (y : Nat) (ops : List SinkOp) (x : Nat) : List Nat → List SinkOp × Nat
  | [] => (ops, x)
  | v :: vs => blit_pixels y (ops ++ [.setPixel x y v]) (x + 1) vs

/-- Outcome of one row of the badge decoder. -/
inductive BlitRowRes where
  | outOfFuel (ops : List SinkOp)
  | rowDone (buf : Nat × Nat) (s : List Nat) (ops : List SinkOp) (fuel : Nat)
  deriving Repr, DecidableEq

/-- Embeds the while x less-than 320 loop of badge_template.py lines 153-168:
identical header handling to the round-trip decoder, but painting through the
PicoGraphics sink with no bounds handling at all.  The activity-LED write of
line 151 is hardware state outside the codec and is not modelled. -/
def blit_row_loop (y : Nat) : Nat → Nat × Nat → List Nat → List SinkOp → Nat → BlitRowRes
  | fuel, buf, s, ops, x =>
    if x < 320 then
      match fuel with
      | 0 => .outOfFuel ops
      | fuel + 1 =>
        let r := readinto2 buf s
        let count := r.1.1
        let value := r.1.2
        if count = 0 then
          let unspan_data := r.2.take value
          let p := blit_pixels y ops x unspan_data
          blit_row_loop y fuel r.1 (r.2.drop value) p.1 p.2
        else
          blit_row_loop y fuel r.1 r.2 (ops ++ [.setSpan x y count value]) (x + count)
    else .rowDone buf s ops fuel

/-- Outcome of the whole badge decode. -/
inductive BlitRes where
  | outOfFuel (ops : List SinkOp)
  | blitDone (ops : List SinkOp) (s : List Nat) (fuel : Nat)
  deriving Repr, DecidableEq

/-- Embeds the for y in range(0, 240) loop of badge_template.py line 149. -/
def blit_rows : Nat → Nat → Nat → Nat × Nat → List Nat → List SinkOp → BlitRes
  | 0, _y, fuel, _buf, s, ops => .blitDone ops s fuel
  | r + 1, y, fuel, buf, s, ops =>
    match blit_row_loop y fuel buf s ops 0 with
    | .outOfFuel ops2 => .outOfFuel ops2
    | .rowDone buf2 s2 ops2 fuel2 => blit_rows r (y + 1) fuel2 buf2 s2 ops2

/-- Embeds blit_from_io_spans of badge_template.py lines 146-168, the handle
being the bytes after the palette (draw_pri_image consumes the palette before
calling it). -/
def blit_from_io_spans (fuel : Nat) (handle : List Nat) : BlitRes :=
  blit_rows 240 0 fuel (0, 0) handle []

/-- Does a sink operation touch any column at or past the width w? -/
def opPastWidth (w : Nat) : SinkOp → Bool
  | .setPixel x _ _ => decide (w ≤ x)
  | .setSpan x _ c _ => decide (w < x + c)

/-- Full 255-pixel chunks of a list followed by the remainder (shorter than
255); states how the unspan buffer cuts a run of singleton pixels. -/
def chunks255 (l : List Nat) : List (List Nat) × List Nat :=
  if _h : 255 ≤ l.length then
    let c := chunks255 (l.drop 255)
    (l.take 255 :: c.1, c.2)
  else ([], l)
termination_by l.length
decreasing_by
  simp only [List.length_drop]
  omega

/-- Records that write_unspan emits for a final buffer u: nothing when it is
empty, a size-one span for a single pixel, a literal block otherwise. -/
def writeUnspanSpans (u : List Nat) : List Span :=
  if u = [] then [] else if u.length = 1 then [.run 1 (u.headD 0)] else [.lit u]

/-- Accumulate one singleton pixel into the pending unspan buffer, flushing
it as a literal block when it reaches 255 entries (the effect of write_span
on a size-one span with unspan generation enabled). -/
def pushChunk (acc : List Span × List Nat) (v : Nat) : List Span × List Nat :=
  let u := acc.2 ++ [v]
  if u.length = 255 then (acc.1 ++ [.lit u], []) else (acc.1, u)

/-- Overshooting test row for the badge decoder: two runs of 200 pixels sum
to 400, past the 320-column width. -/
def cexOvershootRow : List Nat := [200, 7, 200, 7]

/-- A stream of 240 such rows, so the badge decode runs to completion. -/
def cexC3stream : List Nat := (List.replicate 240 cexOvershootRow).flatten

/-- Noisy 256-pixel row (alternating 0 and 1): no two adjacent pixels equal. -/
def noisyRow256 : List Nat := (List.range 256).map fun i => i % 2

/-- Executable check that no two adjacent entries of a list are equal. -/
def noAdjEqB : List Nat → Bool
  | a :: b :: t => decide (a ≠ b) && noAdjEqB (b :: t)
  | _ => true

/-! ## Encoder state lemmas -/

theorem spansPixels_append (A B : List Span) :
    spansPixels (A ++ B) = spansPixels A ++ spansPixels B := by
  simp [spansPixels]

theorem spansPixels_cons (sp : Span) (S : List Span) :
    spansPixels (sp :: S) = sp.pixels ++ spansPixels S := by
  simp [spansPixels]

theorem contribution_eq_pixels_length (sp : Span) :
    sp.contribution = sp.pixels.length := by
  cases sp <;> simp [Span.contribution, Span.pixels]

theorem spansSum_eq_pixels_length (S : List Span) :
    spansSum S = (spansPixels S).length := by
  induction S with
  | nil => simp [spansSum, spansPixels]
  | cons sp S ih =>
    simp [spansSum, spansPixels] at ih ⊢
    simp [contribution_eq_pixels_length, ih]

theorem length_eq_one_headD (l : List Nat) (h : l.length = 1) : l = [l.headD 0] := by
  cases l with
  | nil => simp at h
  | cons a t => cases t <;> simp_all

theorem write_unspan_unspan (st : EncState) : (write_unspan st).unspan = [] := by
  unfold write_unspan
  split
  · simpa
  · split <;> rfl

theorem write_unspan_spanPixel (st : EncState) :
    (write_unspan st).spanPixel = st.spanPixel := by
  unfold write_unspan; split; · rfl
  split <;> rfl

theorem write_unspan_spanCount (st : EncState) :
    (write_unspan st).spanCount = st.spanCount := by
  unfold write_unspan; split; · rfl
  split <;> rfl

theorem write_unspan_pix (st : EncState) :
    spansPixels (write_unspan st).out ++ (write_unspan st).unspan =
      spansPixels st.out ++ st.unspan := by
  unfold write_unspan
  split
  · next h => simp [h]
  split
  · next h1 h2 =>
    conv_rhs => rw [show st.unspan = [st.unspan.headD 0] from length_eq_one_headD _ h2]
    simp [spansPixels_append, spansPixels, Span.pixels]
  · simp [spansPixels_append, spansPixels, Span.pixels]

theorem write_unspan_out_pix (st : EncState) :
    spansPixels (write_unspan st).out = spansPixels st.out ++ st.unspan := by
  have h := write_unspan_pix st
  rwa [write_unspan_unspan, List.append_nil] at h

theorem write_span_pix (gen : Bool) (st : EncState) :
    spansPixels (write_span gen st).out ++ (write_span gen st).unspan =
      spansPixels st.out ++ st.unspan ++
        List.replicate st.spanCount st.spanPixel.toNat := by
  unfold write_span
  split
  · next h => simp [h, write_unspan_pix]
  split
  · next h1 h2 =>
    obtain ⟨hg, hc⟩ := h2
    dsimp only
    split
    · next h255 =>
      rw [write_unspan_pix]
      simp [hc, List.append_assoc]
    · simp [hc, List.append_assoc]
  · next h1 h2 =>
    dsimp only
    rw [spansPixels_append, write_unspan_out_pix, write_unspan_unspan]
    simp [spansPixels, Span.pixels, List.append_assoc]

theorem write_span_spanPixel (gen : Bool) (st : EncState) :
    (write_span gen st).spanPixel = st.spanPixel := by
  unfold write_span
  split
  · exact write_unspan_spanPixel st
  split
  · dsimp only
    split
    · rw [write_unspan_spanPixel]
    · rfl
  · dsimp only
    rw [write_unspan_spanPixel]

theorem write_span_spanCount (gen : Bool) (st : EncState) :
    (write_span gen st).spanCount = st.spanCount := by
  unfold write_span
  split
  · exact write_unspan_spanCount st
  split
  · dsimp only
    split
    · rw [write_unspan_spanCount]
    · rfl
  · dsimp only
    rw [write_unspan_spanCount]

theorem encStep_pix (gen : Bool) (st : EncState) (p : Nat) :
    spansPixels (encStep gen st p).out ++ (encStep gen st p).unspan ++
        List.replicate (encStep gen st p).spanCount (encStep gen st p).spanPixel.toNat =
      spansPixels st.out ++ st.unspan ++
        List.replicate st.spanCount st.spanPixel.toNat ++ [p] := by
  unfold encStep
  split
  · next hmatch =>
    have hpx : st.spanPixel.toNat = p := by rw [← hmatch]; exact Int.toNat_natCast p
    dsimp only
    split
    · next h255 =>
      have h := write_span_pix gen { st with spanCount := st.spanCount + 1 }
      dsimp only at h255 h ⊢
      rw [h]
      simp [← List.replicate_succ' (n := st.spanCount), hpx, List.append_assoc]
    · dsimp only
      simp [← List.replicate_succ' (n := st.spanCount), hpx, List.append_assoc]
  · next hdiff =>
    dsimp only
    rw [write_span_pix]
    simp [Int.toNat_natCast, List.append_assoc]

theorem encFold_pix (gen : Bool) : ∀ (ps : List Nat) (st : EncState),
    spansPixels (ps.foldl (encStep gen) st).out ++ (ps.foldl (encStep gen) st).unspan ++
        List.replicate (ps.foldl (encStep gen) st).spanCount
          (ps.foldl (encStep gen) st).spanPixel.toNat =
      spansPixels st.out ++ st.unspan ++
        List.replicate st.spanCount st.spanPixel.toNat ++ ps := by
  intro ps
  induction ps with
  | nil => intro st; simp
  | cons p ps ih =>
    intro st
    rw [List.foldl_cons, ih (encStep gen st p), encStep_pix]
    simp [List.append_assoc]

/-- Round-trip kernel: the spans emitted for a row cover exactly the row's
pixels, in order. -/
theorem encodeRow_pixels (gen : Bool) (ps : List Nat) :
    spansPixels (encodeRow gen ps) = ps := by
  unfold encodeRow
  dsimp only
  set st := ps.foldl (encStep gen)
    { spanPixel := -1, spanCount := 0, unspan := [], out := [] } with hst
  have h1 : spansPixels (write_unspan (write_span gen st)).out =
      spansPixels (write_span gen st).out ++ (write_span gen st).unspan :=
    write_unspan_out_pix _
  rw [h1, write_span_pix]
  have h2 := encFold_pix gen ps
    { spanPixel := -1, spanCount := 0, unspan := [], out := [] }
  rw [← hst] at h2
  rw [h2]
  simp [spansPixels]

/-- The pixel contributions of a row's records sum to exactly the row
length. -/
theorem encodeRow_sum (gen : Bool) (ps : List Nat) :
    spansSum (encodeRow gen ps) = ps.length := by
  rw [spansSum_eq_pixels_length, encodeRow_pixels]

/-! ## Encoder well-formedness invariant -/

theorem write_unspan_wf (st : EncState) (hout : ∀ sp ∈ st.out, SpanWf sp)
    (hu : st.unspan.length ≤ 255) :
    ∀ sp ∈ (write_unspan st).out, SpanWf sp := by
  unfold write_unspan
  split
  · exact hout
  split
  · next h1 h2 =>
    intro sp hsp
    rcases List.mem_append.1 hsp with h | h
    · exact hout sp h
    · simp at h
      subst h
      exact ⟨le_refl 1, by omega⟩
  · next h1 h2 =>
    intro sp hsp
    rcases List.mem_append.1 hsp with h | h
    · exact hout sp h
    · simp at h
      subst h
      have hne : st.unspan.length ≠ 0 := by
        simpa [List.length_eq_zero] using h1
      have h2' : st.unspan.length ≠ 1 := h2
      exact ⟨by omega, hu⟩

theorem write_span_wf (gen : Bool) (st : EncState)
    (hout : ∀ sp ∈ st.out, SpanWf sp) (hu : st.unspan.length ≤ 254)
    (hc : st.spanCount ≤ 255) :
    (∀ sp ∈ (write_span gen st).out, SpanWf sp) ∧
      (write_span gen st).unspan.length ≤ 254 := by
  unfold write_span
  split
  · exact ⟨write_unspan_wf st hout (by omega), by rw [write_unspan_unspan]; simp⟩
  split
  · next h1 h2 =>
    dsimp only
    split
    · next h255 =>
      refine ⟨write_unspan_wf _ (by simpa using hout) ?_, ?_⟩
      · simp
        omega
      · rw [write_unspan_unspan]; simp
    · next h255 =>
      refine ⟨by simpa using hout, ?_⟩
      simp at h255 ⊢
      omega
  · next h1 h2 =>
    constructor
    · intro sp hsp
      dsimp only at hsp
      rcases List.mem_append.1 hsp with h | h
      · exact write_unspan_wf st hout (by omega) sp h
      · simp at h
        subst h
        exact ⟨by omega, hc⟩
    · dsimp only
      rw [write_unspan_unspan]
      simp

theorem encStep_inv (gen : Bool) (st : EncState) (p : Nat) (h : EncInv st) :
    EncInv (encStep gen st p) := by
  obtain ⟨hout, hu, hc⟩ := h
  unfold encStep
  split
  · dsimp only
    split
    · next h255 =>
      have hw := write_span_wf gen { st with spanCount := st.spanCount + 1 }
        hout hu (by simp at h255 ⊢; omega)
      exact ⟨hw.1, hw.2, by simp⟩
    · next h255 =>
      simp at h255
      exact ⟨hout, hu, by simp; omega⟩
  · have hw := write_span_wf gen st hout hu (by omega)
    exact ⟨hw.1, hw.2, by simp⟩

theorem encFold_inv (gen : Bool) : ∀ (ps : List Nat) (st : EncState),
    EncInv st → EncInv (ps.foldl (encStep gen) st) := by
  intro ps
  induction ps with
  | nil => intro st h; simpa using h
  | cons p ps ih =>
    intro st h
    rw [List.foldl_cons]
    exact ih _ (encStep_inv gen st p h)

/-- Every record the encoder emits for a row is well formed: run counts in
1..255, literal lengths in 2..255. -/
theorem encodeRow_wf (gen : Bool) (ps : List Nat) :
    ∀ sp ∈ encodeRow gen ps, SpanWf sp := by
  unfold encodeRow
  dsimp only
  have hinv : EncInv (ps.foldl (encStep gen)
      { spanPixel := -1, spanCount := 0, unspan := [], out := [] }) :=
    encFold_inv gen ps _ ⟨by simp, by simp, by simp⟩
  obtain ⟨hout, hu, hc⟩ := hinv
  have hw := write_span_wf gen _ hout hu (by omega)
  exact write_unspan_wf _ hw.1 (by omega)

/-! ## Uniform rows -/

theorem uniform_start (gen : Bool) (v : Nat) (o : List Span) :
    encStep gen ⟨-1, 0, [], o⟩ v = ⟨(v : Int), 1, [], o⟩ := by
  unfold encStep
  split
  · next h =>
    dsimp only at h
    omega
  · unfold write_span write_unspan
    simp

theorem uniform_ext (gen : Bool) (v : Nat) : ∀ (k c : Nat) (u : List Nat) (o : List Span),
    1 ≤ c → c + k ≤ 254 →
    (List.replicate k v).foldl (encStep gen) ⟨(v : Int), c, u, o⟩ = ⟨(v : Int), c + k, u, o⟩ := by
  intro k
  induction k with
  | zero => intro c u o _ _; simp
  | succ k ih =>
    intro c u o hc hk
    rw [List.replicate_succ, List.foldl_cons]
    have hstep : encStep gen ⟨(v : Int), c, u, o⟩ v = ⟨(v : Int), c + 1, u, o⟩ := by
      unfold encStep
      rw [if_pos rfl]
      dsimp only
      rw [if_neg (by omega)]
    rw [hstep]
    have h2 := ih (c + 1) u o (by omega) (by omega)
    rw [h2]
    congr 1
    omega

theorem uniform_block (gen : Bool) (v : Nat) (o : List Span) :
    (List.replicate 254 v).foldl (encStep gen) ⟨(v : Int), 1, [], o⟩ =
      ⟨-1, 0, [], o ++ [.run 255 v]⟩ := by
  rw [show (254 : Nat) = 253 + 1 from rfl, List.replicate_succ', List.foldl_append]
  rw [uniform_ext gen v 253 1 [] o (by omega) (by omega)]
  simp only [List.foldl_cons, List.foldl_nil]
  have hstep : encStep gen ⟨(v : Int), 254, [], o⟩ v =
      ⟨-1, 0, [], o ++ [.run 255 v]⟩ := by
    unfold encStep
    rw [if_pos rfl]
    dsimp only
    rw [if_pos rfl]
    unfold write_span write_unspan
    simp [Int.toNat_natCast]
  exact hstep

theorem uniform_fold_blocks (gen : Bool) (v : Nat) : ∀ (m : Nat) (o : List Span),
    (List.replicate (255 * m) v).foldl (encStep gen) ⟨-1, 0, [], o⟩ =
      ⟨-1, 0, [], o ++ List.replicate m (.run 255 v)⟩ := by
  intro m
  induction m with
  | zero => intro o; simp
  | succ m ih =>
    intro o
    have hsplit : 255 * (m + 1) = 255 + 255 * m := by ring
    rw [hsplit, List.replicate_add, List.foldl_append]
    rw [show (255 : Nat) = 1 + 254 from rfl, List.replicate_add, List.foldl_append]
    simp only [List.replicate_one, List.foldl_cons, List.foldl_nil]
    rw [uniform_start, uniform_block, ih]
    simp [List.replicate_succ]

theorem uniform_flush (gen : Bool) (v r : Nat) (o : List Span)
    (hr1 : 1 ≤ r) (hr2 : r ≤ 254) :
    (write_unspan (write_span gen ⟨(v : Int), r, [], o⟩)).out = o ++ [.run r v] := by
  by_cases hone : r = 1
  · subst hone
    cases gen with
    | false =>
      unfold write_span write_unspan
      simp [Int.toNat_natCast]
    | true =>
      unfold write_span write_unspan
      simp [Int.toNat_natCast]
  · have hr0 : ¬(r = 0) := by omega
    unfold write_span write_unspan
    simp [Int.toNat_natCast, hone, hr0]

/-- Closed form of the encoder on a uniform row: full runs of 255 and one
final run carrying the remainder, for either policy setting. -/
theorem encodeRow_uniform (gen : Bool) (v W : Nat) (hW : 1 ≤ W) :
    encodeRow gen (List.replicate W v) =
      List.replicate ((W - 1) / 255) (.run 255 v) ++
        [.run (W - 255 * ((W - 1) / 255)) v] := by
  have hm : (W - 1) / 255 * 255 ≤ W - 1 := Nat.div_mul_le_self _ _
  set m := (W - 1) / 255 with hmdef
  set r := W - 255 * m with hrdef
  have hmod : W - 1 = 255 * m + (W - 1) % 255 := by
    rw [hmdef]; exact (Nat.div_add_mod (W - 1) 255).symm ▸ by omega
  have hmod2 : (W - 1) % 255 < 255 := Nat.mod_lt _ (by omega)
  have hr1 : 1 ≤ r := by omega
  have hr255 : r ≤ 255 := by omega
  have hsplit : W = 255 * m + r := by omega
  unfold encodeRow
  dsimp only
  rw [hsplit, List.replicate_add, List.foldl_append, uniform_fold_blocks]
  by_cases h255 : r = 255
  · rw [h255]
    have hrep : List.replicate 255 v = v :: List.replicate 254 v := rfl
    rw [hrep, List.foldl_cons, uniform_start, uniform_block]
    unfold write_span write_unspan
    simp
  · rw [show r = 1 + (r - 1) by omega, List.replicate_add, List.foldl_append]
    simp only [List.replicate_one, List.foldl_cons, List.foldl_nil]
    rw [uniform_start, uniform_ext gen v (r - 1) 1 [] _ (by omega) (by omega)]
    rw [show 1 + (r - 1) = r by omega]
    rw [uniform_flush gen v r _ hr1 (by omega)]
    simp

/-! ## Noisy rows -/

theorem encStep_new (gen : Bool) (prev : Int) (c : Nat) (u : List Nat)
    (o : List Span) (p : Nat) (hne : (p : Int) ≠ prev) :
    encStep gen ⟨prev, c, u, o⟩ p =
      { write_span gen ⟨prev, c, u, o⟩ with spanPixel := (p : Int), spanCount := 1 } := by
  unfold encStep
  split
  · next h =>
    dsimp only at h
    exact absurd h hne
  · rfl

theorem write_span_single_true (prev : Nat) (u : List Nat) (o : List Span) :
    write_span true ⟨(prev : Int), 1, u, o⟩ =
      ⟨(prev : Int), 1, (pushChunk (o, u) prev).2, (pushChunk (o, u) prev).1⟩ := by
  unfold write_span pushChunk
  rw [if_neg (by dsimp only; omega), if_pos (by dsimp only; exact ⟨rfl, rfl⟩)]
  dsimp only
  simp only [Int.toNat_natCast]
  split
  · next h =>
    unfold write_unspan
    rw [if_neg (by dsimp only; simp), if_neg (by dsimp only; omega)]
  · rfl

theorem noisy_push (prev : Nat) (u : List Nat) (o : List Span) (p : Nat)
    (hne : p ≠ prev) :
    encStep true ⟨(prev : Int), 1, u, o⟩ p =
      ⟨(p : Int), 1, (pushChunk (o, u) prev).2, (pushChunk (o, u) prev).1⟩ := by
  rw [encStep_new true _ 1 u o p (by exact_mod_cast hne), write_span_single_true]

theorem noisy_fold (l : List Nat) : ∀ (prev : Nat) (u : List Nat) (o : List Span),
    List.Chain' (· ≠ ·) (prev :: l) →
    l.foldl (encStep true) ⟨(prev : Int), 1, u, o⟩ =
      ⟨((l.getLastD prev : Nat) : Int), 1,
        (List.foldl pushChunk (o, u) ((prev :: l).dropLast)).2,
        (List.foldl pushChunk (o, u) ((prev :: l).dropLast)).1⟩ := by
  induction l with
  | nil => intro prev u o _; simp
  | cons p l ih =>
    intro prev u o hch
    have hne : p ≠ prev := by
      have := List.chain'_cons.1 hch
      exact fun h => this.1 h.symm
    have hch2 : List.Chain' (· ≠ ·) (p :: l) := (List.chain'_cons.1 hch).2
    rw [List.foldl_cons, noisy_push prev u o p hne]
    rw [ih p _ _ hch2]
    rw [show (prev :: p :: l).dropLast = prev :: (p :: l).dropLast from rfl]
    rw [List.foldl_cons, List.getLastD_cons]

theorem pushChunk_eq (o : List Span) (u : List Nat) (v : Nat) :
    pushChunk (o, u) v =
      if (u ++ [v]).length = 255 then (o ++ [.lit (u ++ [v])], []) else (o, u ++ [v]) := rfl

theorem pushChunk_chunks (l : List Nat) : ∀ (u : List Nat) (o : List Span),
    u.length ≤ 254 →
    List.foldl pushChunk (o, u) l =
      (o ++ ((chunks255 (u ++ l)).1).map Span.lit, (chunks255 (u ++ l)).2) := by
  induction l with
  | nil =>
    intro u o hu
    rw [chunks255]
    split
    · next h =>
      exfalso
      simp at h
      omega
    · simp
  | cons v l ih =>
    intro u o hu
    have huv : u ++ v :: l = (u ++ [v]) ++ l := by simp
    rw [List.foldl_cons, pushChunk_eq]
    split
    · next h255 =>
      have hch : chunks255 ((u ++ [v]) ++ l) =
          ((u ++ [v]) :: (chunks255 l).1, (chunks255 l).2) := by
        rw [chunks255]
        split
        · next h =>
          dsimp only
          rw [show ((u ++ [v]) ++ l).take 255 = u ++ [v] by
            rw [← h255]; exact List.take_left _ _]
          rw [show ((u ++ [v]) ++ l).drop 255 = l by
            rw [← h255]; exact List.drop_left _ _]
        · next h =>
          exfalso
          simp at h h255
          omega
      rw [ih [] _ (by simp)]
      rw [huv, hch]
      simp
    · next h255 =>
      have hlen : (u ++ [v]).length ≤ 254 := by
        simp at h255 ⊢
        omega
      rw [ih _ _ hlen, huv]

theorem flush_last (plast : Nat) (u : List Nat) (o : List Span) :
    (write_unspan (write_span true ⟨(plast : Int), 1, u, o⟩)).out =
      (pushChunk (o, u) plast).1 ++ writeUnspanSpans (pushChunk (o, u) plast).2 := by
  rw [write_span_single_true]
  unfold write_unspan writeUnspanSpans
  dsimp only
  split
  · next h => simp [h]
  · next h =>
    split
    · next h1 => simp
    · next h1 => simp

theorem dropLast_append_getLastD : ∀ (l : List Nat) (a : Nat),
    (a :: l).dropLast ++ [l.getLastD a] = a :: l := by
  intro l
  induction l with
  | nil => intro a; simp
  | cons b t ih =>
    intro a
    rw [show (a :: b :: t).dropLast = a :: (b :: t).dropLast from rfl,
      List.getLastD_cons]
    simp only [List.cons_append, List.cons.injEq, true_and]
    exact ih b

/-- Structure of the encoder on a fully noisy row with unspan generation on:
the pixels are cut into full 255-pixel literal blocks, and the remainder is
flushed by write_unspan (a literal block when it holds at least two pixels, a
size-one run when it holds one, nothing when it is empty). -/
theorem encodeRow_noisy_true (ps : List Nat) (h : List.Chain' (· ≠ ·) ps) :
    encodeRow true ps =
      ((chunks255 ps).1).map Span.lit ++ writeUnspanSpans (chunks255 ps).2 := by
  cases ps with
  | nil =>
    rw [chunks255]
    simp [encodeRow, write_span, write_unspan, writeUnspanSpans]
  | cons p l =>
    unfold encodeRow
    dsimp only
    rw [List.foldl_cons, uniform_start, noisy_fold l p [] [] h, flush_last]
    have hfold : List.foldl pushChunk (([], []) : List Span × List Nat) (p :: l) =
        pushChunk (List.foldl pushChunk ([], []) ((p :: l).dropLast)) (l.getLastD p) := by
      conv_lhs => rw [← dropLast_append_getLastD l p]
      rw [List.foldl_append]
      simp
    rw [Prod.mk.eta, ← hfold, pushChunk_chunks (p :: l) [] [] (by simp)]
    simp

theorem noisy_fold_false (l : List Nat) : ∀ (prev : Nat) (o : List Span),
    List.Chain' (· ≠ ·) (prev :: l) →
    l.foldl (encStep false) ⟨(prev : Int), 1, [], o⟩ =
      ⟨((l.getLastD prev : Nat) : Int), 1, [],
        o ++ ((prev :: l).dropLast).map (Span.run 1)⟩ := by
  induction l with
  | nil => intro prev o _; simp
  | cons p l ih =>
    intro prev o hch
    have hne : (p : Int) ≠ (prev : Int) := by
      have h1 := (List.chain'_cons.1 hch).1
      intro hval
      exact h1 (by exact_mod_cast hval.symm)
    rw [List.foldl_cons, encStep_new false _ 1 [] o p hne]
    have hws : write_span false ⟨(prev : Int), 1, [], o⟩ =
        ⟨(prev : Int), 1, [], o ++ [.run 1 prev]⟩ := by
      unfold write_span write_unspan
      simp [Int.toNat_natCast]
    rw [hws]
    rw [ih p _ (List.chain'_cons.1 hch).2]
    rw [show (prev :: p :: l).dropLast = prev :: (p :: l).dropLast from rfl,
      List.getLastD_cons]
    simp

/-- Structure of the encoder on a fully noisy row with unspan generation
off: one size-one run per pixel. -/
theorem encodeRow_noisy_false (ps : List Nat) (h : List.Chain' (· ≠ ·) ps) :
    encodeRow false ps = ps.map (Span.run 1) := by
  cases ps with
  | nil => simp [encodeRow, write_span, write_unspan]
  | cons p l =>
    unfold encodeRow
    dsimp only
    rw [List.foldl_cons, uniform_start, noisy_fold_false l p [] h]
    have hws : ∀ (q : Nat) (o : List Span),
        (write_unspan (write_span false ⟨(q : Int), 1, [], o⟩)).out =
          o ++ [.run 1 q] := by
      intro q o
      unfold write_span write_unspan
      simp [Int.toNat_natCast]
    rw [hws]
    rw [show [Span.run 1 (l.getLastD p)] = List.map (Span.run 1) [l.getLastD p] from rfl]
    rw [List.nil_append, ← List.map_append, dropLast_append_getLastD]

theorem chunks255_spec : ∀ (n : Nat) (l : List Nat), l.length ≤ n →
    (chunks255 l).1.length = l.length / 255 ∧
      (chunks255 l).2.length = l.length % 255 := by
  intro n
  induction n with
  | zero =>
    intro l h
    rw [chunks255]
    split
    · next h255 => exfalso; omega
    · constructor <;> simp <;> omega
  | succ n ih =>
    intro l h
    rw [chunks255]
    split
    · next h255 =>
      dsimp only
      have hdrop := ih (l.drop 255) (by simp; omega)
      constructor
      · simp only [List.length_cons, hdrop.1, List.length_drop]
        omega
      · rw [hdrop.2]
        simp only [List.length_drop]
        omega
    · next h255 =>
      constructor <;> simp <;> omega

theorem countLits_append (A B : List Span) :
    countLits (A ++ B) = countLits A + countLits B := by
  simp [countLits, List.countP_append]

theorem countRuns_append (A B : List Span) :
    countRuns (A ++ B) = countRuns A + countRuns B := by
  simp [countRuns, List.countP_append]

theorem countLits_map_lit (X : List (List Nat)) :
    countLits (X.map Span.lit) = X.length := by
  induction X with
  | nil => rfl
  | cons a t ih => simp [countLits, List.countP_cons] at ih ⊢

theorem countRuns_map_lit (X : List (List Nat)) :
    countRuns (X.map Span.lit) = 0 := by
  induction X with
  | nil => rfl
  | cons a t ih => simp [countRuns, List.countP_cons] at ih ⊢

theorem encodeRow_noisy_counts (ps : List Nat) (h : List.Chain' (· ≠ ·) ps) :
    countLits (encodeRow true ps) =
      (if ps.length % 255 = 1 then ps.length / 255 else (ps.length + 254) / 255) ∧
      countRuns (encodeRow true ps) = (if ps.length % 255 = 1 then 1 else 0) := by
  obtain ⟨hc1, hc2⟩ := chunks255_spec ps.length ps le_rfl
  rw [encodeRow_noisy_true ps h, countLits_append, countRuns_append,
    countLits_map_lit, countRuns_map_lit, hc1]
  unfold writeUnspanSpans
  split
  · next h0 =>
    have : (chunks255 ps).2.length = 0 := by rw [h0]; rfl
    rw [if_neg (by omega), if_neg (by omega)]
    constructor
    · simp [countLits]
      omega
    · simp [countRuns]
  · next h0 =>
    have hpos : 1 ≤ (chunks255 ps).2.length := by
      cases hx : (chunks255 ps).2 with
      | nil => exact absurd hx h0
      | cons a t => simp [hx]
    split
    · next h1 =>
      rw [if_pos (by omega), if_pos (by omega)]
      constructor
      · simp [countLits, List.countP_cons]
      · simp [countRuns, List.countP_cons]
    · next h1 =>
      have hlt : (chunks255 ps).2.length < 255 := by omega
      rw [if_neg (by omega), if_neg (by omega)]
      constructor
      · simp [countLits, List.countP_cons]
        omega
      · simp [countRuns, List.countP_cons]

/-! ## Serialization with to_bytes failure -/

theorem toByteE_ok (v : Nat) (h : v ≤ 255) : toByteE v = .ok v := by
  simp [toByteE, h]

theorem toByteE_err (v : Nat) (h : 255 < v) :
    toByteE v = .error .invalidPixelValue := by
  simp [toByteE]
  omega

theorem bytesAllE_ok : ∀ (l : List Nat), (∀ b ∈ l, b ≤ 255) → bytesAllE l = .ok l := by
  intro l
  induction l with
  | nil => intro _; rfl
  | cons b bs ih =>
    intro h
    unfold bytesAllE
    rw [toByteE_ok b (h b (by simp)), ih fun x hx => h x (by simp [hx])]
    rfl

theorem bytesAllE_err : ∀ (l : List Nat), (∃ b ∈ l, 255 < b) →
    bytesAllE l = .error .invalidPixelValue := by
  intro l
  induction l with
  | nil => intro h; simp at h
  | cons b bs ih =>
    intro h
    unfold bytesAllE
    by_cases hb : b ≤ 255
    · rw [toByteE_ok b hb]
      have hbs : ∃ x ∈ bs, 255 < x := by
        obtain ⟨x, hx, hxg⟩ := h
        rcases List.mem_cons.1 hx with rfl | hx2
        · omega
        · exact ⟨x, hx2, hxg⟩
      rw [ih hbs]
      rfl
    · rw [toByteE_err b (by omega)]
      rfl

theorem mem_spansPixels_of_mem (sp : Span) (S : List Span) (v : Nat)
    (hsp : sp ∈ S) (hv : v ∈ sp.pixels) : v ∈ spansPixels S := by
  simp only [spansPixels, List.mem_flatten, List.mem_map]
  exact ⟨sp.pixels, ⟨sp, hsp, rfl⟩, hv⟩

theorem spanBytesE_ok (sp : Span) (hwf : SpanWf sp)
    (h : ∀ v ∈ sp.pixels, v ≤ 255) : spanBytesE sp = .ok sp.bytes := by
  cases sp with
  | run c v =>
    obtain ⟨h1, h2⟩ := hwf
    have hv : v ≤ 255 := by
      apply h
      simp [Span.pixels]
      omega
    unfold spanBytesE
    dsimp only
    rw [toByteE_ok c h2, toByteE_ok v hv]
    rfl
  | lit vs =>
    obtain ⟨h1, h2⟩ := hwf
    unfold spanBytesE
    dsimp only
    rw [toByteE_ok vs.length h2, bytesAllE_ok vs (by simpa [Span.pixels] using h)]
    rfl

theorem spanBytesE_err (sp : Span) (hwf : SpanWf sp)
    (h : ∃ v ∈ sp.pixels, 255 < v) :
    spanBytesE sp = .error .invalidPixelValue := by
  cases sp with
  | run c v =>
    obtain ⟨h1, h2⟩ := hwf
    obtain ⟨x, hx, hxg⟩ := h
    have hv : 255 < v := by
      simp [Span.pixels] at hx
      omega
    unfold spanBytesE
    dsimp only
    rw [toByteE_ok c h2, toByteE_err v hv]
    rfl
  | lit vs =>
    obtain ⟨h1, h2⟩ := hwf
    unfold spanBytesE
    dsimp only
    rw [toByteE_ok vs.length h2, bytesAllE_err vs (by simpa [Span.pixels] using h)]
    rfl

theorem spansBytesE_ok : ∀ (S : List Span), (∀ sp ∈ S, SpanWf sp) →
    (∀ sp ∈ S, ∀ v ∈ sp.pixels, v ≤ 255) →
    spansBytesE S = .ok (spansBytes S) := by
  intro S
  induction S with
  | nil => intro _ _; rfl
  | cons sp S ih =>
    intro hwf h
    unfold spansBytesE
    rw [spanBytesE_ok sp (hwf sp (by simp)) (h sp (by simp))]
    rw [ih (fun x hx => hwf x (by simp [hx])) (fun x hx => h x (by simp [hx]))]
    rfl

theorem spansBytesE_err : ∀ (S : List Span), (∀ sp ∈ S, SpanWf sp) →
    (∃ sp ∈ S, ∃ v ∈ sp.pixels, 255 < v) →
    spansBytesE S = .error .invalidPixelValue := by
  intro S
  induction S with
  | nil => intro _ h; simp at h
  | cons sp S ih =>
    intro hwf h
    unfold spansBytesE
    by_cases hsp : ∃ v ∈ sp.pixels, 255 < v
    · rw [spanBytesE_err sp (hwf sp (by simp)) hsp]
      rfl
    · push_neg at hsp
      rw [spanBytesE_ok sp (hwf sp (by simp)) (fun v hv => by have := hsp v hv; omega)]
      have hS : ∃ x ∈ S, ∃ v ∈ x.pixels, 255 < v := by
        obtain ⟨x, hx, v, hv, hvg⟩ := h
        rcases List.mem_cons.1 hx with rfl | hx2
        · have := hsp v hv
          omega
        · exact ⟨x, hx2, v, hv, hvg⟩
      rw [ih (fun x hx => hwf x (by simp [hx])) hS]
      rfl

theorem rowsBytesE_ok (gen : Bool) : ∀ (rows : List (List Nat)),
    (∀ r ∈ rows, ∀ v ∈ r, v ≤ 255) →
    rowsBytesE gen rows = .ok ((rows.map (rowBytes gen)).flatten) := by
  intro rows
  induction rows with
  | nil => intro _; rfl
  | cons r rs ih =>
    intro h
    unfold rowsBytesE
    rw [spansBytesE_ok _ (encodeRow_wf gen r) ?hpix]
    case hpix =>
      intro sp hsp v hv
      have : v ∈ spansPixels (encodeRow gen r) := mem_spansPixels_of_mem sp _ v hsp hv
      rw [encodeRow_pixels] at this
      exact h r (by simp) v this
    rw [ih fun x hx => h x (by simp [hx])]
    rfl

theorem rowsBytesE_err (gen : Bool) : ∀ (rows : List (List Nat)),
    (∃ r ∈ rows, ∃ v ∈ r, 255 < v) →
    rowsBytesE gen rows = .error .invalidPixelValue := by
  intro rows
  induction rows with
  | nil => intro h; simp at h
  | cons r rs ih =>
    intro h
    unfold rowsBytesE
    by_cases hr : ∃ v ∈ r, 255 < v
    · obtain ⟨v, hv, hvg⟩ := hr
      have hv2 : v ∈ spansPixels (encodeRow gen r) := by
        rw [encodeRow_pixels]; exact hv
      have : ∃ sp ∈ encodeRow gen r, ∃ x ∈ sp.pixels, 255 < x := by
        simp only [spansPixels, List.mem_flatten] at hv2
        obtain ⟨l, hl, hvl⟩ := hv2
        obtain ⟨sp, hsp, rfl⟩ := List.mem_map.1 hl
        exact ⟨sp, hsp, v, hvl, hvg⟩
      rw [spansBytesE_err _ (encodeRow_wf gen r) this]
      rfl
    · push_neg at hr
      rw [spansBytesE_ok _ (encodeRow_wf gen r) ?hpix]
      case hpix =>
        intro sp hsp v hv
        have : v ∈ spansPixels (encodeRow gen r) := mem_spansPixels_of_mem sp _ v hsp hv
        rw [encodeRow_pixels] at this
        have := hr v this
        omega
      have hrs : ∃ x ∈ rs, ∃ v ∈ x, 255 < v := by
        obtain ⟨x, hx, v, hv, hvg⟩ := h
        rcases List.mem_cons.1 hx with rfl | hx2
        · have := hr v hv; omega
        · exact ⟨x, hx2, v, hv, hvg⟩
      rw [ih hrs]
      rfl

theorem encodeImageE_ok (gen : Bool) (pal : List Nat) (rows : List (List Nat))
    (hp : pal.length = 768) (hpb : ∀ b ∈ pal, b ≤ 255)
    (hv : ∀ r ∈ rows, ∀ v ∈ r, v ≤ 255) :
    encodeImageE gen pal rows = .ok (encodeImage gen pal rows) := by
  unfold encodeImageE
  rw [if_pos (by omega)]
  rw [bytesAllE_ok pal hpb, rowsBytesE_ok gen rows hv]
  rfl

/-! ## Decoder painting lemmas -/

theorem setSeg_append (P1 : List Nat) : ∀ (P2 : List Nat) (g : Grid) (y x : Nat),
    setSeg g y x (P1 ++ P2) = setSeg (setSeg g y x P1) y (x + P1.length) P2 := by
  induction P1 with
  | nil => intro P2 g y x; simp [setSeg]
  | cons v vs ih =>
    intro P2 g y x
    rw [List.cons_append]
    show setSeg (setPix g x y v) y (x + 1) (vs ++ P2) = _
    rw [ih]
    rw [show x + (v :: vs).length = x + 1 + vs.length by simp; omega]
    rfl

theorem rt_paint_list_ok : ∀ (vs : List Nat) (W H y : Nat) (g : Grid) (x : Nat),
    y < H → x + vs.length ≤ W →
    rt_paint_list W H y g x vs = .pok (setSeg g y x vs) (x + vs.length) := by
  intro vs
  induction vs with
  | nil => intro W H y g x _ _; simp [rt_paint_list, setSeg]
  | cons v vs ih =>
    intro W H y g x hy hx
    unfold rt_paint_list putpixelE
    rw [if_pos ⟨by simp at hx; omega, hy⟩]
    dsimp only
    rw [ih W H y _ (x + 1) hy (by simp at hx ⊢; omega)]
    rw [show x + (v :: vs).length = x + 1 + vs.length by simp; omega]
    rfl

theorem rt_paint_run_ok : ∀ (c : Nat) (W H y : Nat) (g : Grid) (x v : Nat),
    y < H → x + c ≤ W →
    rt_paint_run W H y g x v c = .pok (setSeg g y x (List.replicate c v)) (x + c) := by
  intro c
  induction c with
  | zero => intro W H y g x v _ _; simp [rt_paint_run, List.replicate, setSeg]
  | succ c ih =>
    intro W H y g x v hy hx
    unfold rt_paint_run putpixelE
    rw [if_pos ⟨by omega, hy⟩]
    dsimp only
    rw [ih W H y _ (x + 1) v hy (by omega)]
    rw [List.replicate_succ]
    rw [show x + (c + 1) = x + 1 + c by omega]
    rfl

theorem spanWf_contribution (sp : Span) (h : SpanWf sp) : 1 ≤ sp.contribution := by
  cases sp with
  | run c v => exact h.1
  | lit vs =>
    have := h.1
    simp [Span.contribution]
    omega

theorem spansSum_cons (sp : Span) (S : List Span) :
    spansSum (sp :: S) = sp.contribution + spansSum S := by
  simp [spansSum]

theorem rt_row_loop_spec : ∀ (S : List Span) (rest : List Nat) (W H y : Nat)
    (g : Grid) (x : Nat) (buf : Nat × Nat) (f : Nat),
    (∀ sp ∈ S, SpanWf sp) → x + spansSum S = W → y < H →
    ∃ b2, rt_row_loop W H y (f + S.length) buf (spansBytes S ++ rest) g x =
      .rowDone b2 rest (setSeg g y x (spansPixels S)) f := by
  intro S
  induction S with
  | nil =>
    intro rest W H y g x buf f _ hsum _
    refine ⟨buf, ?_⟩
    rw [rt_row_loop.eq_def]
    dsimp only
    rw [if_neg (by simp [spansSum] at hsum; omega)]
    simp [spansBytes, spansPixels, setSeg]
  | cons sp S ih =>
    intro rest W H y g x buf f hwf hsum hy
    have hcon : 1 ≤ sp.contribution := spanWf_contribution sp (hwf sp (by simp))
    have hx : x < W := by
      rw [spansSum_cons] at hsum
      omega
    rw [show f + (sp :: S).length = (f + S.length) + 1 by simp; omega]
    rw [rt_row_loop.eq_def]
    dsimp only
    rw [if_pos hx]
    cases sp with
    | run c v =>
      have hc1 : 1 ≤ c := by simpa [Span.contribution] using hcon
      have hxc : x + c + spansSum S = W := by
        rw [spansSum_cons] at hsum
        simp [Span.contribution] at hsum
        omega
      rw [show spansBytes (Span.run c v :: S) ++ rest =
        c :: v :: (spansBytes S ++ rest) by simp [spansBytes, Span.bytes]]
      dsimp only [readinto2]
      rw [if_neg (by omega)]
      rw [rt_paint_run_ok c W H y g x v hy (by omega)]
      dsimp only
      obtain ⟨b2, hih⟩ := ih (rest) W H y (setSeg g y x (List.replicate c v))
        (x + c) (c, v) f (fun q hq => hwf q (by simp [hq])) hxc hy
      refine ⟨b2, ?_⟩
      rw [hih]
      rw [show spansPixels (Span.run c v :: S) =
        List.replicate c v ++ spansPixels S by simp [spansPixels, Span.pixels]]
      rw [setSeg_append]
      simp
    | lit vs =>
      have hxl : x + vs.length + spansSum S = W := by
        rw [spansSum_cons] at hsum
        simp [Span.contribution] at hsum
        omega
      rw [show spansBytes (Span.lit vs :: S) ++ rest =
        0 :: vs.length :: (vs ++ (spansBytes S ++ rest)) by simp [spansBytes, Span.bytes]]
      dsimp only [readinto2]
      rw [if_pos rfl]
      rw [List.take_left, List.drop_left]
      rw [rt_paint_list_ok vs W H y g x hy (by omega)]
      dsimp only
      obtain ⟨b2, hih⟩ := ih (rest) W H y (setSeg g y x vs)
        (x + vs.length) (0, vs.length) f (fun q hq => hwf q (by simp [hq])) hxl hy
      refine ⟨b2, ?_⟩
      rw [hih]
      rw [show spansPixels (Span.lit vs :: S) =
        vs ++ spansPixels S by simp [spansPixels, Span.pixels]]
      rw [setSeg_append]

theorem rt_rows_spec : ∀ (SS : List (List Span)) (W H y : Nat) (g : Grid)
    (rest : List Nat) (buf : Nat × Nat) (f : Nat),
    (∀ S ∈ SS, ∀ sp ∈ S, SpanWf sp) → (∀ S ∈ SS, spansSum S = W) →
    y + SS.length ≤ H →
    rt_rows W H SS.length y (f + spansLen SS) buf
        ((SS.map spansBytes).flatten ++ rest) g =
      .rowsDone (paintRows g y (SS.map spansPixels)) rest f := by
  intro SS
  induction SS with
  | nil =>
    intro W H y g rest buf f _ _ _
    simp [spansLen, paintRows, rt_rows]
  | cons S SS ih =>
    intro W H y g rest buf f hwf hsum hH
    rw [show f + spansLen (S :: SS) = (f + spansLen SS) + S.length by
      simp [spansLen]; omega]
    rw [show ((S :: SS).map spansBytes).flatten ++ rest =
      spansBytes S ++ ((SS.map spansBytes).flatten ++ rest) by simp]
    obtain ⟨b2, hrow⟩ := rt_row_loop_spec S ((SS.map spansBytes).flatten ++ rest)
      W H y g 0 buf (f + spansLen SS) (hwf S (by simp))
      (by simpa using hsum S (by simp)) (by simp at hH; omega)
    rw [show (S :: SS).length = SS.length + 1 from rfl]
    rw [rt_rows.eq_def]
    dsimp only
    rw [hrow]
    dsimp only
    rw [ih W H (y + 1) _ rest b2 f (fun T hT => hwf T (by simp [hT]))
      (fun T hT => hsum T (by simp [hT])) (by simp at hH ⊢; omega)]
    rfl

theorem setPix_cons_succ (r : List Nat) (g : Grid) (x y v : Nat) :
    setPix (r :: g) x (y + 1) v = r :: setPix g x y v := by
  simp [setPix]

theorem setSeg_cons_succ : ∀ (P : List Nat) (r : List Nat) (g : Grid) (y x : Nat),
    setSeg (r :: g) (y + 1) x P = r :: setSeg g y x P := by
  intro P
  induction P with
  | nil => intro r g y x; rfl
  | cons v vs ih =>
    intro r g y x
    show setSeg (setPix (r :: g) x (y + 1) v) (y + 1) (x + 1) vs = _
    rw [setPix_cons_succ, ih]
    rfl

theorem setPix_cons_zero (r : List Nat) (g : Grid) (x v : Nat) :
    setPix (r :: g) x 0 v = (r.set x v) :: g := by
  simp [setPix]

theorem setSeg_zero : ∀ (P : List Nat) (r : List Nat) (g : Grid) (x : Nat),
    setSeg (r :: g) 0 x P = rowSeg r x P :: g := by
  intro P
  induction P with
  | nil => intro r g x; rfl
  | cons v vs ih =>
    intro r g x
    show setSeg (setPix (r :: g) x 0 v) 0 (x + 1) vs = _
    rw [setPix_cons_zero, ih]
    rfl

theorem rowSeg_shift : ∀ (P : List Nat) (a : Nat) (rt : List Nat) (x : Nat),
    rowSeg (a :: rt) (x + 1) P = a :: rowSeg rt x P := by
  intro P
  induction P with
  | nil => intro a rt x; rfl
  | cons v vs ih =>
    intro a rt x
    show rowSeg ((a :: rt).set (x + 1) v) (x + 1 + 1) vs = _
    rw [show (a :: rt).set (x + 1) v = a :: rt.set x v from rfl, ih]
    rfl

theorem rowSeg_zero : ∀ (P row : List Nat), P.length ≤ row.length →
    rowSeg row 0 P = P ++ row.drop P.length := by
  intro P
  induction P with
  | nil => intro row _; simp [rowSeg]
  | cons v vs ih =>
    intro row h
    cases row with
    | nil => simp at h
    | cons r0 rt =>
      show rowSeg ((r0 :: rt).set 0 v) 1 vs = _
      rw [show (r0 :: rt).set 0 v = v :: rt from rfl]
      rw [show (1 : Nat) = 0 + 1 from rfl, rowSeg_shift]
      rw [ih rt (by simp at h; omega)]
      simp

theorem paintRows_shift : ∀ (Ps : List (List Nat)) (r : List Nat) (g : Grid) (y : Nat),
    paintRows (r :: g) (y + 1) Ps = r :: paintRows g y Ps := by
  intro Ps
  induction Ps with
  | nil => intro r g y; rfl
  | cons P Ps ih =>
    intro r g y
    show paintRows (setSeg (r :: g) (y + 1) 0 P) (y + 1 + 1) Ps = _
    rw [setSeg_cons_succ, ih]
    rfl

theorem paintRows_zero (W : Nat) : ∀ (Ps : List (List Nat)) (g : Grid),
    (∀ r ∈ g, r.length = W) → (∀ P ∈ Ps, P.length = W) → Ps.length ≤ g.length →
    paintRows g 0 Ps = Ps ++ g.drop Ps.length := by
  intro Ps
  induction Ps with
  | nil => intro g _ _ _; simp [paintRows]
  | cons P Ps ih =>
    intro g hg hP hlen
    cases g with
    | nil => simp at hlen
    | cons r0 gt =>
      show paintRows (setSeg (r0 :: gt) 0 0 P) 1 Ps = _
      rw [setSeg_zero]
      rw [rowSeg_zero P r0 (by rw [hP P (by simp), hg r0 (by simp)])]
      rw [show r0.drop P.length = [] by
        rw [hP P (by simp), ← hg r0 (by simp)]
        simp]
      rw [List.append_nil]
      rw [show (1 : Nat) = 0 + 1 from rfl, paintRows_shift]
      rw [ih gt (fun r hr => hg r (by simp [hr])) (fun q hq => hP q (by simp [hq]))
        (by simp at hlen ⊢; omega)]
      simp

theorem spansBytes_len : ∀ (S : List Span), S.length ≤ (spansBytes S).length := by
  intro S
  induction S with
  | nil => simp [spansBytes]
  | cons sp S ih =>
    have h1 : 1 ≤ sp.bytes.length := by cases sp <;> simp [Span.bytes]
    simp [spansBytes] at ih ⊢
    omega

theorem spansLen_le_bytes : ∀ (SS : List (List Span)),
    spansLen SS ≤ ((SS.map spansBytes).flatten).length := by
  intro SS
  induction SS with
  | nil => simp [spansLen]
  | cons S SS ih =>
    have := spansBytes_len S
    simp [spansLen] at ih ⊢
    omega

theorem pri_round_trip (gen : Bool) (pal : List Nat) (rows : List (List Nat))
    (W : Nat) (hp : pal.length = 768) (hpb : ∀ b ∈ pal, b ≤ 255)
    (hw : ∀ r ∈ rows, r.length = W) (hv : ∀ r ∈ rows, ∀ v ∈ r, v ≤ 255) :
    encodeImageE gen pal rows = .ok (encodeImage gen pal rows) ∧
    ∃ f, round_trip_decode (encodeImage gen pal rows).length W rows.length
        (encodeImage gen pal rows) = .decDone pal rows [] f := by
  refine ⟨encodeImageE_ok gen pal rows hp hpb hv, ?_⟩
  have hXSS : (rows.map (rowBytes gen)).flatten =
      ((rows.map (encodeRow gen)).map spansBytes).flatten := by
    rw [List.map_map]
    rfl
  have hwfSS : ∀ S ∈ rows.map (encodeRow gen), ∀ sp ∈ S, SpanWf sp := by
    intro S hS
    obtain ⟨r, hr, rfl⟩ := List.mem_map.1 hS
    exact encodeRow_wf gen r
  have hsumSS : ∀ S ∈ rows.map (encodeRow gen), spansSum S = W := by
    intro S hS
    obtain ⟨r, hr, rfl⟩ := List.mem_map.1 hS
    rw [encodeRow_sum]
    exact hw r hr
  have hpixSS : (rows.map (encodeRow gen)).map spansPixels = rows := by
    rw [List.map_map]
    have h : rows.map (spansPixels ∘ encodeRow gen) = rows.map id := by
      apply List.map_congr_left
      intro r _
      exact encodeRow_pixels gen r
    rw [h, List.map_id]
  have hle : spansLen (rows.map (encodeRow gen)) ≤
      (pal ++ (rows.map (rowBytes gen)).flatten).length := by
    have h1 := spansLen_le_bytes (rows.map (encodeRow gen))
    rw [← hXSS] at h1
    simp only [List.length_append]
    omega
  refine ⟨(pal ++ (rows.map (rowBytes gen)).flatten).length -
    spansLen (rows.map (encodeRow gen)), ?_⟩
  unfold round_trip_decode
  dsimp only
  rw [show encodeImage gen pal rows = pal ++ (rows.map (rowBytes gen)).flatten from rfl]
  rw [← hp, List.take_left, List.drop_left, Nat.sub_self, List.replicate_zero,
    List.append_nil]
  rw [show (pal ++ (rows.map (rowBytes gen)).flatten).length =
      ((pal ++ (rows.map (rowBytes gen)).flatten).length -
        spansLen (rows.map (encodeRow gen))) +
        spansLen (rows.map (encodeRow gen)) by omega]
  rw [show rows.length = (rows.map (encodeRow gen)).length by simp]
  rw [hXSS]
  rw [← List.append_nil (((rows.map (encodeRow gen)).map spansBytes).flatten)]
  rw [rt_rows_spec (rows.map (encodeRow gen)) W (rows.map (encodeRow gen)).length
    0 _ [] (0, 0) _ hwfSS hsumSS (by omega)]
  dsimp only
  rw [hpixSS]
  rw [paintRows_zero W rows _
    (fun r hr => by
      have := List.eq_of_mem_replicate hr
      rw [this]
      simp)
    hw (by simp)]
  rw [show (List.replicate (rows.map (encodeRow gen)).length
      (List.replicate W 0)).drop rows.length = [] by
    simp]
  rw [List.append_nil]
  congr 1
  omega

/-! ## Overshoot and truncation behavior of the decoders -/

theorem rt_paint_run_overshoot : ∀ (c : Nat) (W H y : Nat) (g : Grid) (x v : Nat),
    x ≤ W → y < H → W < x + c →
    rt_paint_run W H y g x v c = .perr (setSeg g y x (List.replicate (W - x) v)) := by
  intro c
  induction c with
  | zero =>
    intro W H y g x v hxW _ hover
    exact absurd hover (by omega)
  | succ c ih =>
    intro W H y g x v hxW hy hover
    by_cases hlt : x < W
    · unfold rt_paint_run putpixelE
      rw [if_pos ⟨hlt, hy⟩]
      dsimp only
      rw [ih W H y _ (x + 1) v (by omega) hy (by omega)]
      rw [show W - x = (W - (x + 1)) + 1 by omega, List.replicate_succ]
      rfl
    · unfold rt_paint_run putpixelE
      rw [if_neg (by omega)]
      rw [show W - x = 0 by omega]
      rfl

theorem rt_row_loop_starves : ∀ (fuel W H y : Nat) (g : Grid) (x : Nat), x < W →
    rt_row_loop W H y fuel (0, 0) [] g x = .outOfFuel g := by
  intro fuel
  induction fuel with
  | zero =>
    intro W H y g x hx
    rw [rt_row_loop.eq_def]
    dsimp only
    rw [if_pos hx]
  | succ f ih =>
    intro W H y g x hx
    rw [rt_row_loop.eq_def]
    dsimp only
    rw [if_pos hx]
    dsimp only [readinto2]
    rw [if_pos rfl]
    dsimp only [List.take_nil, rt_paint_list]
    rw [List.drop_nil]
    exact ih W H y g x hx

theorem rt_scenarioC : ∀ (fuel : Nat),
    round_trip_decode fuel 2 1 (List.replicate 768 0) = .outOfFuel [[0, 0]] := by
  intro fuel
  unfold round_trip_decode
  dsimp only
  have hdrop := List.drop_length (List.replicate 768 (0 : Nat))
  rw [List.length_replicate] at hdrop
  rw [hdrop]
  rw [show List.replicate 1 (List.replicate 2 (0 : Nat)) = [[0, 0]] from rfl]
  rw [show (1 : Nat) = 0 + 1 from rfl]
  rw [rt_rows.eq_def]
  dsimp only
  rw [rt_row_loop_starves fuel 2 1 0 [[0, 0]] 0 (by omega)]

theorem blit_pixels_nil (y : Nat) (ops : List SinkOp) (x : Nat) :
    blit_pixels y ops x [] = (ops, x) := rfl

theorem blit_row_loop_starves : ∀ (fuel y : Nat) (ops : List SinkOp) (x : Nat),
    x < 320 →
    blit_row_loop y fuel (0, 0) [] ops x = .outOfFuel ops := by
  intro fuel
  induction fuel with
  | zero =>
    intro y ops x hx
    rw [blit_row_loop.eq_def]
    dsimp only
    rw [if_pos hx]
  | succ f ih =>
    intro y ops x hx
    rw [blit_row_loop.eq_def]
    dsimp only
    rw [if_pos hx]
    dsimp only [readinto2]
    rw [if_pos rfl]
    dsimp only [List.take_nil, blit_pixels]
    rw [List.drop_nil]
    exact ih y ops x hx

theorem blit_scenarioC : ∀ (fuel : Nat),
    blit_from_io_spans fuel [] = .outOfFuel [] := by
  intro fuel
  unfold blit_from_io_spans
  rw [show (240 : Nat) = 239 + 1 from rfl]
  rw [blit_rows.eq_def]
  dsimp only
  rw [blit_row_loop_starves fuel 0 [] 0 (by omega)]

theorem chain'_of_noAdjEqB : ∀ (l : List Nat), noAdjEqB l = true →
    List.Chain' (· ≠ ·) l := by
  intro l
  induction l with
  | nil => intro _; simp
  | cons a t ih =>
    cases t with
    | nil => intro _; simp
    | cons b t2 =>
      intro h
      rw [noAdjEqB] at h
      simp only [Bool.and_eq_true, decide_eq_true_eq] at h
      rw [List.chain'_cons]
      exact ⟨h.1, ih h.2⟩

theorem rt_scenarioD :
    round_trip_decode 50 2 1 (List.replicate 768 0 ++ [3, 7]) = .indexError [[7, 7]] := by
  unfold round_trip_decode
  dsimp only
  set P := List.replicate 768 (0 : Nat) with hP
  have hlen : P.length = 768 := by
    rw [hP]
    exact List.length_replicate 768 0
  rw [← hlen, List.take_left, List.drop_left]
  rw [show List.replicate 1 (List.replicate 2 (0 : Nat)) = [[0, 0]] from rfl]
  rw [show (1 : Nat) = 0 + 1 from rfl]
  rw [rt_rows.eq_def]
  dsimp only
  rw [show (50 : Nat) = 49 + 1 from rfl]
  rw [rt_row_loop.eq_def]
  dsimp only
  rw [if_pos (by omega)]
  dsimp only [readinto2]
  rw [if_neg (by omega)]
  rw [rt_paint_run_overshoot 3 2 1 0 [[0, 0]] 0 7 (by omega) (by omega) (by omega)]
  rfl

theorem blit_row_cex (y f : Nat) (buf : Nat × Nat) (rest : List Nat) (ops : List SinkOp) :
    blit_row_loop y (f + 2) buf (cexOvershootRow ++ rest) ops 0 =
      .rowDone (200, 7) rest (ops ++ [.setSpan 0 y 200 7] ++ [.setSpan 200 y 200 7]) f := by
  rw [show f + 2 = (f + 1) + 1 by omega]
  rw [blit_row_loop.eq_def]
  dsimp only
  rw [if_pos (by omega)]
  rw [show cexOvershootRow ++ rest = 200 :: 7 :: (200 :: 7 :: rest) from rfl]
  dsimp only [readinto2]
  rw [if_neg (by omega)]
  rw [blit_row_loop.eq_def]
  dsimp only
  rw [if_pos (by omega)]
  dsimp only [readinto2]
  rw [if_neg (by omega)]
  rw [blit_row_loop.eq_def]
  dsimp only
  rw [if_neg (by omega)]

theorem blit_rows_cex : ∀ (r y f : Nat) (buf : Nat × Nat) (ops : List SinkOp),
    ∃ ops2, blit_rows r y (f + 2 * r) buf
        ((List.replicate r cexOvershootRow).flatten) ops = .blitDone ops2 [] f ∧
      ((ops.any (opPastWidth 320) = true ∨ 1 ≤ r) →
        ops2.any (opPastWidth 320) = true) := by
  intro r
  induction r with
  | zero =>
    intro y f buf ops
    refine ⟨ops, ?_, ?_⟩
    · simp [blit_rows]
    · intro h
      rcases h with h | h
      · exact h
      · omega
  | succ r ih =>
    intro y f buf ops
    rw [show f + 2 * (r + 1) = (f + 2 * r) + 2 by omega]
    rw [show (List.replicate (r + 1) cexOvershootRow).flatten =
      cexOvershootRow ++ (List.replicate r cexOvershootRow).flatten by
      rw [List.replicate_succ]; simp]
    rw [blit_rows.eq_def]
    dsimp only
    rw [blit_row_cex y (f + 2 * r) buf _ ops]
    obtain ⟨ops2, heq, hany⟩ := ih (y + 1) f (200, 7)
      (ops ++ [.setSpan 0 y 200 7] ++ [.setSpan 200 y 200 7])
    refine ⟨ops2, heq, ?_⟩
    intro _
    apply hany
    left
    simp [List.any_append, opPastWidth]

/-- On the overshooting test stream the badge decoder completes all 240 rows
without any error and its sink log contains a run covering columns at and
past the 320-pixel width. -/
theorem blit_cexC3 :
    ∃ ops, blit_from_io_spans 480 cexC3stream = .blitDone ops [] 0 ∧
      ops.any (opPastWidth 320) = true := by
  obtain ⟨ops2, heq, hany⟩ := blit_rows_cex 240 0 0 (0, 0) []
  refine ⟨ops2, ?_, hany (Or.inr (by omega))⟩
  unfold blit_from_io_spans
  rw [show (480 : Nat) = 0 + 2 * 240 by omega]
  exact heq

theorem noisyRow256_length : noisyRow256.length = 256 := by
  simp [noisyRow256]

/-! ## Claims -/

/-- Claim C1: for every valid image (a W by H grid of pixel indices in 0..255
with a 768-byte palette), the encode succeeds, and decoding the produced
byte stream with the round-trip decoder (with either setting of the
singleton-literal policy) reproduces the image exactly, pixel for pixel, and
the 768 palette bytes read back equal the palette bytes written. -/
theorem claim_C1_round_trip (gen : Bool) (pal : List Nat) (rows : List (List Nat))
    (W : Nat) (hp : pal.length = 768) (hpb : ∀ b ∈ pal, b ≤ 255)
    (hw : ∀ r ∈ rows, r.length = W) (hv : ∀ r ∈ rows, ∀ v ∈ r, v ≤ 255) :
    encodeImageE gen pal rows = .ok (encodeImage gen pal rows) ∧
    ∃ f, round_trip_decode (encodeImage gen pal rows).length W rows.length
        (encodeImage gen pal rows) = .decDone pal rows [] f :=
  pri_round_trip gen pal rows W hp hpb hw hv

/-- Witness for C1 at a concrete 2 by 1 image. -/
theorem claim_C1_witness :
    encodeImageE true (List.replicate 768 3) [[1, 1]] =
      .ok (encodeImage true (List.replicate 768 3) [[1, 1]]) ∧
    ∃ f, round_trip_decode (encodeImage true (List.replicate 768 3) [[1, 1]]).length 2 1
        (encodeImage true (List.replicate 768 3) [[1, 1]]) =
      .decDone (List.replicate 768 3) [[1, 1]] [] f :=
  claim_C1_round_trip true (List.replicate 768 3) [[1, 1]] 2
    (List.length_replicate 768 3)
    (fun b hb => by rw [List.eq_of_mem_replicate hb]; omega)
    (by decide) (by decide)

/-- Claim C2: for every input row of exactly W pixels, the pixel contributions
of the records the encoder emits (count for a run, length for a literal) sum
to exactly W, for either setting of the singleton-literal policy. -/
theorem claim_C2_row_sum (gen : Bool) (ps : List Nat) :
    spansSum (encodeRow gen ps) = ps.length :=
  encodeRow_sum gen ps

/-- Counterexample to claim C3: on a stream whose rows' spans sum to 400 over
the 320-column width, the badge decoder completes all rows without reporting
any error, and its sink receives a run write covering columns at and past
the width — so decode neither fails with RowOverflow nor keeps pixels at
x at least W away from the Sink. -/
theorem claim_C3_counterexample :
    ∃ ops, blit_from_io_spans 480 cexC3stream = .blitDone ops [] 0 ∧
      ops.any (opPastWidth 320) = true :=
  blit_cexC3

/-- Claim C3 as amended: a span that would push x past W makes the round-trip
decoder abort at the first out-of-range pixel write (the PIL putpixel
IndexError, not a RowOverflow error), with exactly the pixels up to column
W-1 painted and nothing at column W or beyond; on the concrete overshooting
stream it aborts with the first W pixels painted; the badge blit decoder
detects nothing: it completes and issues a sink run covering columns past W. -/
theorem claim_C3_overshoot :
    (∀ (c W H y : Nat) (g : Grid) (x v : Nat), x ≤ W → y < H → W < x + c →
      rt_paint_run W H y g x v c = .perr (setSeg g y x (List.replicate (W - x) v))) ∧
    round_trip_decode 50 2 1 (List.replicate 768 0 ++ [3, 7]) = .indexError [[7, 7]] ∧
    (∃ ops, blit_from_io_spans 480 cexC3stream = .blitDone ops [] 0 ∧
      ops.any (opPastWidth 320) = true) :=
  ⟨fun c W H y g x v hx hy ho => rt_paint_run_overshoot c W H y g x v hx hy ho,
    rt_scenarioD, blit_cexC3⟩

/-- Witness for C3's run-overshoot clause at a concrete state. -/
theorem claim_C3_witness :
    rt_paint_run 2 1 0 [[0, 0]] 0 7 3 =
      .perr (setSeg [[0, 0]] 0 0 (List.replicate 2 7)) :=
  claim_C3_overshoot.1 3 2 1 0 [[0, 0]] 0 7 (by omega) (by omega) (by omega)

/-- Counterexample to claim C4: on the Scenario C stream (768 palette bytes
and no row data) the round-trip decoder does not fail with TruncatedStream:
at fuel 50 it is still looping with no pixel painted, and the badge decoder
likewise; neither model even has a truncation error to report. -/
theorem claim_C4_counterexample :
    round_trip_decode 50 2 1 (List.replicate 768 0) = .outOfFuel [[0, 0]] ∧
    blit_from_io_spans 50 [] = .outOfFuel [] :=
  ⟨rt_scenarioC 50, blit_scenarioC 50⟩

/-- Claim C4 as amended: neither decoder detects truncation.  On an exhausted
source, readinto leaves the zero-initialized 2-byte buffer untouched, which
parses as a zero-length literal, so the row loop spins forever (for every
fuel) without painting a single pixel and without reporting any error; in
particular a stream of a valid 768-byte palette followed by zero row bytes
never terminates and never paints. -/
theorem claim_C4_truncation :
    (∀ (fuel W H y : Nat) (g : Grid) (x : Nat), x < W →
      rt_row_loop W H y fuel (0, 0) [] g x = .outOfFuel g) ∧
    (∀ fuel, round_trip_decode fuel 2 1 (List.replicate 768 0) = .outOfFuel [[0, 0]]) ∧
    (∀ fuel, blit_from_io_spans fuel [] = .outOfFuel []) :=
  ⟨fun fuel W H y g x hx => rt_row_loop_starves fuel W H y g x hx,
    rt_scenarioC, blit_scenarioC⟩

/-- Witness for C4's starvation clause at a concrete state. -/
theorem claim_C4_witness :
    rt_row_loop 2 1 0 5 (0, 0) [] [[0, 0]] 0 = .outOfFuel [[0, 0]] :=
  claim_C4_truncation.1 5 2 1 0 [[0, 0]] 0 (by omega)

set_option maxRecDepth 4000 in
/-- Counterexample to claim C5: the fully noisy 256-pixel row (alternating 0
and 1) does not encode to ceil(256/255) = 2 LiteralSpans and zero RunSpans
with the singleton-literal policy enabled; it encodes to one 255-pixel
LiteralSpan followed by one RunSpan of count 1 (the leftover single pixel is
flushed as a size-one span). -/
theorem claim_C5_counterexample :
    ¬ (countLits (encodeRow true noisyRow256) = 2 ∧
        countRuns (encodeRow true noisyRow256) = 0) ∧
    countLits (encodeRow true noisyRow256) = 1 ∧
    countRuns (encodeRow true noisyRow256) = 1 := by
  have h := encodeRow_noisy_counts noisyRow256 (chain'_of_noAdjEqB _ (by decide))
  rw [noisyRow256_length] at h
  norm_num at h
  refine ⟨?_, h.1, h.2⟩
  intro hcon
  rw [h.1] at hcon
  exact absurd hcon.1 (by omega)

/-- Claim C5 as amended: on a row with no two adjacent pixels equal, with the
policy enabled the pixels are cut into full 255-pixel literal blocks with the
remainder flushed by write_unspan, so the row yields ceil(W/255) records: all
LiteralSpans when W mod 255 is not 1, but when W mod 255 = 1 (including W =
256 and W = 1) the final record is RunSpan 1 v instead; with the policy
disabled the row encodes to one RunSpan of count 1 per pixel. -/
theorem claim_C5_noisy (ps : List Nat) (h : List.Chain' (· ≠ ·) ps) :
    encodeRow true ps =
      ((chunks255 ps).1).map Span.lit ++ writeUnspanSpans (chunks255 ps).2 ∧
    countLits (encodeRow true ps) =
      (if ps.length % 255 = 1 then ps.length / 255 else (ps.length + 254) / 255) ∧
    countRuns (encodeRow true ps) = (if ps.length % 255 = 1 then 1 else 0) ∧
    encodeRow false ps = ps.map (Span.run 1) :=
  ⟨encodeRow_noisy_true ps h, (encodeRow_noisy_counts ps h).1,
    (encodeRow_noisy_counts ps h).2, encodeRow_noisy_false ps h⟩

/-- Witness for C5 at the concrete noisy row 1, 2, 3. -/
theorem claim_C5_witness :
    encodeRow true [1, 2, 3] =
      ((chunks255 [1, 2, 3]).1).map Span.lit ++ writeUnspanSpans (chunks255 [1, 2, 3]).2 ∧
    countLits (encodeRow true [1, 2, 3]) =
      (if ([1, 2, 3] : List Nat).length % 255 = 1 then ([1, 2, 3] : List Nat).length / 255
        else (([1, 2, 3] : List Nat).length + 254) / 255) ∧
    countRuns (encodeRow true [1, 2, 3]) =
      (if ([1, 2, 3] : List Nat).length % 255 = 1 then 1 else 0) ∧
    encodeRow false [1, 2, 3] = ([1, 2, 3] : List Nat).map (Span.run 1) :=
  claim_C5_noisy [1, 2, 3] (chain'_of_noAdjEqB _ (by decide))

/-- Claim C6: a row of W identical pixels encodes, for either policy setting,
to ceil(W/255) RunSpans and zero LiteralSpans: every RunSpan but the last has
count 255 and the last carries the remainder count W - 255 * (ceil(W/255) - 1);
in particular W = 1 yields the single record RunSpan 1 v. -/
theorem claim_C6_uniform (gen : Bool) (v W : Nat) (hW : 1 ≤ W) :
    encodeRow gen (List.replicate W v) =
      List.replicate ((W - 1) / 255) (.run 255 v) ++
        [.run (W - 255 * ((W - 1) / 255)) v] :=
  encodeRow_uniform gen v W hW

/-- Witness for C6 at a concrete uniform row of three pixels. -/
theorem claim_C6_witness :
    encodeRow true (List.replicate 3 9) = [Span.run 3 9] :=
  claim_C6_uniform true 9 3 (by omega)

/-- Claim C7: encoding the single row 1, 2, 3 with the singleton-literal
policy enabled produces exactly the row bytes 0x00 0x03 0x01 0x02 0x03, and
the whole encoder output is the 768 palette bytes followed by them. -/
theorem claim_C7_scenarioB :
    rowBytes true [1, 2, 3] = [0, 3, 1, 2, 3] ∧
    encodeImageE true (List.replicate 768 0) [[1, 2, 3]] =
      .ok (List.replicate 768 0 ++ [0, 3, 1, 2, 3]) := by
  constructor
  · rfl
  · rw [encodeImageE_ok true _ [[1, 2, 3]] (List.length_replicate 768 0)
      (fun b hb => by rw [List.eq_of_mem_replicate hb]; omega) (by decide)]
    have hx : ([[1, 2, 3]].map (rowBytes true)).flatten = [0, 3, 1, 2, 3] := by rfl
    rw [show encodeImage true (List.replicate 768 0) [[1, 2, 3]] =
      List.replicate 768 0 ++ ([[1, 2, 3]].map (rowBytes true)).flatten from rfl, hx]

/-- Claim C8: every record the encoder emits, for either policy setting, has
its one-byte fields in range: a run count in 1..255, a literal length in
1..255 (never 0, never above 255). -/
theorem claim_C8_bounds (gen : Bool) (ps : List Nat) (sp : Span)
    (h : sp ∈ encodeRow gen ps) :
    match sp with
    | .run c _ => 1 ≤ c ∧ c ≤ 255
    | .lit vs => 1 ≤ vs.length ∧ vs.length ≤ 255 := by
  have hwf := encodeRow_wf gen ps sp h
  cases sp with
  | run c v => exact hwf
  | lit vs =>
    refine ⟨?_, hwf.2⟩
    have := hwf.1
    omega

/-- Witness for C8 at a concrete emitted run. -/
theorem claim_C8_witness :
    Span.run 3 9 ∈ encodeRow true (List.replicate 3 9) ∧ 1 ≤ 3 ∧ 3 ≤ 255 :=
  ⟨by decide, claim_C8_bounds true (List.replicate 3 9) (Span.run 3 9) (by decide)⟩

/-- Claim C9: a supplied palette that is not exactly 256 entries (768 bytes)
makes the encode fail with PaletteOverflow; with a valid palette, any pixel
value outside 0..255 anywhere in the image makes the encode fail with
InvalidPixelValue; in both cases the whole encode aborts with the error
rather than returning output. -/
theorem claim_C9_validation (gen : Bool) (pal : List Nat) (rows : List (List Nat)) :
    (pal.length ≠ 768 → encodeImageE gen pal rows = .error .paletteOverflow) ∧
    (pal.length = 768 → (∀ b ∈ pal, b ≤ 255) → (∃ r ∈ rows, ∃ v ∈ r, 255 < v) →
      encodeImageE gen pal rows = .error .invalidPixelValue) := by
  constructor
  · intro h
    unfold encodeImageE
    rw [if_neg (by omega)]
  · intro hp hpb hbad
    unfold encodeImageE
    rw [if_pos (by omega)]
    rw [bytesAllE_ok pal hpb, rowsBytesE_err gen rows hbad]
    rfl

/-- Witness for C9 at a short palette and at an out-of-range pixel. -/
theorem claim_C9_witness :
    encodeImageE true [1, 2, 3] [[0]] = .error .paletteOverflow ∧
    encodeImageE true (List.replicate 768 0) [[300]] = .error .invalidPixelValue :=
  ⟨(claim_C9_validation true [1, 2, 3] [[0]]).1 (by decide),
    (claim_C9_validation true (List.replicate 768 0) [[300]]).2
      (List.length_replicate 768 0)
      (fun b hb => by rw [List.eq_of_mem_replicate hb]; omega)
      ⟨[300], by simp, 300, by simp, by omega⟩⟩

/-- Claim C10: every LiteralSpan the encoder actually emits holds at least
two pixels — a pending buffer of exactly one pixel is flushed as the two
bytes of RunSpan 1 v, never as a length-1 literal. -/
theorem claim_C10_min_literal (gen : Bool) (ps : List Nat) (sp : Span)
    (h : sp ∈ encodeRow gen ps) :
    match sp with
    | .run _ _ => True
    | .lit vs => 2 ≤ vs.length := by
  have hwf := encodeRow_wf gen ps sp h
  cases sp with
  | run c v => trivial
  | lit vs => exact hwf.1

/-- Witness for C10 at a concrete emitted literal block. -/
theorem claim_C10_witness :
    Span.lit [1, 2, 3] ∈ encodeRow true [1, 2, 3] ∧
      2 ≤ ([1, 2, 3] : List Nat).length :=
  ⟨by decide, claim_C10_min_literal true [1, 2, 3] (Span.lit [1, 2, 3]) (by decide)⟩
